import Mathlib

/-
Verification of the vscod download-orchestration logic (src/vscod):
a shallow embedding of the specification parsers, the metadata resolvers
(version and filename resolution) and the download orchestrators, together
with theorems settling the specification's claims about them.

Modelling conventions:
 - Python exceptions become `Except` results.
 - The HTTP layer is an oracle `Network`: `get url` is the response a GET of
   `url` observes, `none` modelling a raised request error.  Responses are a
   function of the url, matching the claims' "network responses held constant".
 - `pathlib.Path` values are modelled as lists of path segments (keys of the
   specification are taken to be single segments, free of separators).
 - The filesystem is an association list of (path, contents) files.
 - asyncio coroutines are sequential fallible computations; `asyncio.gather`
   becomes `gatherExcept` (results in task order, or a propagated failure).
-/

namespace Vscod

mutual

/-- A value in the extensions specification tree: a JSON value that is either
a string (an extension-id leaf), a nested mapping, or anything else
(`other` stands for any JSON value that is neither a string nor a mapping,
for example the number 5). -/
inductive SpecValue : Type where
  | str (s : String) : SpecValue
  | dict (entries : SpecEntries) : SpecValue
  | other : SpecValue

/-- The key/value entries of a specification mapping, in insertion order
(a Python dict preserves insertion order, so it is an association list). -/
inductive SpecEntries : Type where
  | nil : SpecEntries
  | cons (key : String) (value : SpecValue) (rest : SpecEntries) : SpecEntries

end

/-- Mirrors the `ExtensionPath` dataclass of extensions_downloader.py:
final save path (as segments), extension ID, and version
(defaulting to "latest" at construction). -/
structure ExtensionPath where
  path : List String
  extension_id : String
  version : String
  deriving Repr, DecidableEq

/-- Errors raised by `_recursive_parse_to_dict`: `ValueError` when a key's
string value is empty, `TypeError` when a value is neither str nor dict.
Both carry the offending key. -/
inductive ParseError where
  | emptyValue (key : String) : ParseError
  | badType (key : String) : ParseError
  deriving Repr, DecidableEq

/-- Shallow embedding of `_recursive_parse_to_dict`: walk the entries in
insertion order; a string value emits one `ExtensionPath` with path
key/value and version "latest"; a dict value recurses and prepends the key
to every returned path; anything else raises. -/
def _recursive_parse_to_dict : SpecEntries → Except ParseError (List ExtensionPath)
  | SpecEntries.nil => Except.ok []
  | SpecEntries.cons key (SpecValue.str v) rest =>
      if v = "" then Except.error (ParseError.emptyValue key)
      else do
        let tail ← _recursive_parse_to_dict rest
        Except.ok (ExtensionPath.mk [key, v] v "latest" :: tail)
  | SpecEntries.cons key (SpecValue.dict d) rest => do
      let sub ← _recursive_parse_to_dict d
      let tail ← _recursive_parse_to_dict rest
      Except.ok
        (sub.map (fun p => ExtensionPath.mk (key :: p.path) p.extension_id p.version) ++ tail)
  | SpecEntries.cons key SpecValue.other _ => Except.error (ParseError.badType key)

/-- `parse_extensions_json` on raw dict data.  (The `Path` branch of the
source, which first loads the JSON document from disk and selects the
"extensions" key, is file I/O outside the model.) -/
def parse_extensions_json (json_data : SpecEntries) : Except ParseError (List ExtensionPath) :=
  _recursive_parse_to_dict json_data

mutual

/-- Claim-side predicate: a value is a non-empty string or a well-formed
nested mapping. -/
def wellFormedValue : SpecValue → Bool
  | SpecValue.str v => if v = "" then false else true
  | SpecValue.dict d => wellFormedEntries d
  | SpecValue.other => false

/-- Claim-side predicate: all values of the tree are non-empty strings or
nested mappings. -/
def wellFormedEntries : SpecEntries → Bool
  | SpecEntries.nil => true
  | SpecEntries.cons _ v rest => wellFormedValue v && wellFormedEntries rest

end

mutual

/-- Claim-side predicate: this value is, or contains, a malformed value
(neither string nor mapping, or an empty string leaf). -/
def valueBad : SpecValue → Bool
  | SpecValue.str v => if v = "" then true else false
  | SpecValue.dict d => entriesBad d
  | SpecValue.other => true

/-- Claim-side predicate: some value in the tree is malformed. -/
def entriesBad : SpecEntries → Bool
  | SpecEntries.nil => false
  | SpecEntries.cons _ v rest => valueBad v || entriesBad rest

end

/-- The string leaves of a specification tree in depth-first insertion order,
each with the list of keys from the root down to (and including) its own key. -/
def stringLeaves : SpecEntries → List (List String × String)
  | SpecEntries.nil => []
  | SpecEntries.cons key (SpecValue.str v) rest => ([key], v) :: stringLeaves rest
  | SpecEntries.cons key (SpecValue.dict d) rest =>
      (stringLeaves d).map (fun x => (key :: x.1, x.2)) ++ stringLeaves rest
  | SpecEntries.cons _ SpecValue.other rest => stringLeaves rest

/-- The targets the specification's recursion rule prescribes: one per string
leaf, path = keys from the root to the leaf followed by the leaf value,
extension id = the leaf value, version defaulted to "latest". -/
def targetsOf (t : SpecEntries) : List ExtensionPath :=
  (stringLeaves t).map (fun x => ExtensionPath.mk (x.1 ++ [x.2]) x.2 "latest")

/-- Generic `Except.isOk` test, kept as a plain definition for use in
statements. -/
def exceptIsOk {ε α : Type} : Except ε α → Bool
  | Except.ok _ => true
  | Except.error _ => false

/-- Body bytes of an HTTP response, as abstract byte values. -/
abbrev Bytes := List Nat

/-- An HTTP response as the code observes one: the optional
Content-Disposition header, the final (post-redirect) response url, and the
body, readable as text (`bodyText`, for return_type=str) or as bytes
(`bodyBytes`, for return_type=bytes). -/
structure HttpResponse where
  contentDisposition : Option String
  url : String
  bodyText : String
  bodyBytes : Bytes
  deriving Repr, DecidableEq

/-- The network oracle: `get url` is the response observed by a GET of `url`;
`none` models the request (or reading its body) raising an exception. -/
structure Network where
  get : String → Option HttpResponse

/-- The filesystem: an association list of (path segments, contents) files. -/
abbrev FS := List (List String × Bytes)

/-- Truncate-write of `data` to the file at `p` (open mode 'wb'). -/
def fsWrite (fs : FS) (p : List String) (data : Bytes) : FS :=
  fs.filter (fun e => if e.1 = p then false else true) ++ [(p, data)]

/-- Runtime errors of the downloader pipeline. -/
inductive DlError where
  | parse (e : ParseError) : DlError
  | network (url : String) : DlError
  | indexError : DlError
  | unpackErr : DlError
  | keyError : DlError
  deriving Repr, DecidableEq

/-- Does the character list start with the pattern `p`? -/
def beginsWith : List Char → List Char → Bool
  | [], _ => true
  | _ :: _, [] => false
  | p :: ps, c :: cs => if p = c then beginsWith ps cs else false

/-- Index of the last occurrence of `c` in the list, if any. -/
def lastIdxOf (c : Char) : List Char → Option Nat
  | [] => none
  | a :: rest =>
      match lastIdxOf c rest with
      | some i => some (i + 1)
      | none => if a = c then some 0 else none

/-- Python `str.split(sep)` for a single-character separator, on character
lists: splitting the empty string gives one empty part. -/
def splitOnChar (sep : Char) : List Char → List (List Char)
  | [] => [[]]
  | c :: rest =>
      match splitOnChar sep rest with
      | h :: t => if c = sep then [] :: h :: t else (c :: h) :: t
      | [] => if c = sep then [[], []] else [[c]]

/-- Python `str.split(sep)` on strings (the `[]` fallback of `splitOnChar`
is unreachable: it always returns at least one part). -/
def splitStr (sep : Char) (s : String) : List String :=
  (splitOnChar sep s.toList).map (fun cs => String.mk cs)

/-- The literal part of the pattern `filename=(.+);`. -/
def filenamePat : List Char := "filename=".toList

/-- Matching `(.+);` against `rest`: `.` does not cross a newline and `+` is
greedy, so the capture runs to the last ';' on the current line and needs at
least one character before it. -/
def captureGreedySemi (rest : List Char) : Option (List Char) :=
  let line := rest.takeWhile (fun c => if c = '\n' then false else true)
  match lastIdxOf ';' line with
  | some j => if 1 ≤ j then some (line.take j) else none
  | none => none

/-- Leftmost capture of `re.findall('filename=(.+);', s)`: scan left to right
for a position where the whole pattern matches, take its greedy capture. -/
def findFilenameAux : List Char → Option (List Char)
  | [] => none
  | c :: cs =>
      if beginsWith filenamePat (c :: cs) then
        match captureGreedySemi ((c :: cs).drop filenamePat.length) with
        | some cap => some cap
        | none => findFilenameAux cs
      else findFilenameAux cs

/-- First capture of `re.findall('filename=(.+);', s)`, if the list of matches
is non-empty. -/
def findFilenameCapture (s : String) : Option String :=
  (findFilenameAux s.toList).map (fun cs => String.mk cs)

/-- Python `Path(str(url)).name`: the last '/'-separated segment, with empty
and '.' components dropped (posix flavour), or "" when none remain. -/
def pathNameOf (url : String) : String :=
  (((splitStr '/' url).filter
      (fun s => if s = "" then false else if s = "." then false else true)).getLast?).getD ""

/-- Shallow embedding of `utils.get_original_filename`: GET the url; if a
non-empty Content-Disposition header is present, index the first
`filename=(.+);` capture (an empty match list raises IndexError); otherwise
fall back to the final path segment of the response url. -/
def get_original_filename (net : Network) (url : String) : Except DlError String :=
  match net.get url with
  | none => Except.error (DlError.network url)
  | some resp =>
      match resp.contentDisposition with
      | some cd =>
          if cd = "" then Except.ok (pathNameOf resp.url)
          else
            match findFilenameCapture cd with
            | some name => Except.ok name
            | none => Except.error DlError.indexError
      | none => Except.ok (pathNameOf resp.url)

/-- The literal part of the pattern `"Version":"(.*?)"`. -/
def versionPat : List Char := "\"Version\":\"".toList

/-- Matching `(.*?)"` against `rest`: lazy capture of the (possibly empty)
run of non-newline characters up to the next '"', failing when the line ends
without one. -/
def captureLazyQuote (rest : List Char) : Option (List Char) :=
  let pre := rest.takeWhile (fun c => if c = '"' then false else if c = '\n' then false else true)
  match rest.drop pre.length with
  | c :: _ => if c = '"' then some pre else none
  | [] => none

/-- Leftmost capture of `re.search('"Version":"(.*?)"', s)`. -/
def findVersionAux : List Char → Option (List Char)
  | [] => none
  | c :: cs =>
      if beginsWith versionPat (c :: cs) then
        match captureLazyQuote ((c :: cs).drop versionPat.length) with
        | some cap => some cap
        | none => findVersionAux cs
      else findVersionAux cs

/-- Capture of `re.search('"Version":"(.*?)"', s)`, if any match exists. -/
def findVersionCapture (s : String) : Option String :=
  (findVersionAux s.toList).map (fun cs => String.mk cs)

/-- MARKETPLACE_DOWNLOAD_LINK, formatted (`_build_extension_download_url`). -/
def _build_extension_download_url
    (extension_name publisher_name version : String) : String :=
  "https://marketplace.visualstudio.com/_apis/public/gallery/publishers/" ++ publisher_name
    ++ "/vsextensions/" ++ extension_name ++ "/" ++ version ++ "/vspackage"

/-- MARKETPLACE_PAGE_LINK, formatted for an extension id. -/
def MARKETPLACE_PAGE_LINK (extension_id : String) : String :=
  "https://marketplace.visualstudio.com/items?itemName=" ++ extension_id

/-- `_build_extension_download_url_from_ext_path`: Python unpacks
`extension_id.split('.')` into exactly two names, raising ValueError
(modelled `unpackErr`) for any other number of parts. -/
def _build_extension_download_url_from_ext_path
    (ext_path : ExtensionPath) : Except DlError String :=
  match splitStr '.' ext_path.extension_id with
  | [publisher_name, extension_name] =>
      Except.ok (_build_extension_download_url extension_name publisher_name ext_path.version)
  | _ => Except.error DlError.unpackErr

/-- `get_extension_version`: fetch the marketplace page and extract the first
`"Version":"..."` token; the try/except turns any fetch failure or missing
match into the sentinel "latest", so the function is total. -/
def get_extension_version (net : Network) (extension_id : String) : String :=
  match net.get (MARKETPLACE_PAGE_LINK extension_id) with
  | none => "latest"
  | some resp =>
      match findVersionCapture resp.bodyText with
      | none => "latest"
      | some version => version

/-- The per-target patch `ext_path.version = version` performed by
`versionize_extension_paths`. -/
def setVersion (net : Network) (p : ExtensionPath) : ExtensionPath :=
  ExtensionPath.mk p.path p.extension_id (get_extension_version net p.extension_id)

/-- `versionize_extension_paths`: set every target's version to the resolved
(or sentinel) version of its extension id. -/
def versionize_extension_paths (net : Network) (extension_paths : List ExtensionPath) :
    List ExtensionPath :=
  extension_paths.map (setVersion net)

/-- `asyncio.gather` over fallible tasks: all results in task order, or a
propagated failure. -/
def gatherExcept {ε α : Type} : List (Except ε α) → Except ε (List α)
  | [] => Except.ok []
  | Except.error e :: _ => Except.error e
  | Except.ok a :: rest => (gatherExcept rest).map (fun l => a :: l)

/-- `Path.with_name`: replace the final segment.  (Python raises on a path
without a name; every modelled call site passes a parsed, hence non-empty,
path.) -/
def withName (p : List String) (name : String) : List String :=
  p.dropLast ++ [name]

/-- The per-target patch `ext_path.path = ext_path.path.with_name(filename)`
performed by `patch_extension_paths` on a (target, filename) pair. -/
def setFilename (pf : ExtensionPath × String) : ExtensionPath :=
  ExtensionPath.mk (withName pf.1.path pf.2) pf.1.extension_id pf.1.version

/-- `patch_extension_paths`: optionally versionize, then build every download
url (ValueError from the split surfaces while the task list is built, before
any request), resolve all original filenames, and replace each target's final
path segment with its resolved filename. -/
def patch_extension_paths (net : Network) (extension_paths : List ExtensionPath)
    (versionize : Bool) : Except DlError (List ExtensionPath) :=
  let paths :=
    if versionize then versionize_extension_paths net extension_paths else extension_paths
  do
    let urls ← gatherExcept (paths.map _build_extension_download_url_from_ext_path)
    let original_filenames ← gatherExcept (urls.map (get_original_filename net))
    Except.ok ((paths.zip original_filenames).map setFilename)

/-- `utils.download_url`: the whole body is read before the save file is ever
opened, so a failed GET or body read returns the error branch without
touching the filesystem; only the success branch performs the write. -/
def download_url (net : Network) (url : String) (save_path : List String) (fs : FS) :
    Except DlError FS :=
  match net.get url with
  | none => Except.error (DlError.network url)
  | some resp => Except.ok (fsWrite fs save_path resp.bodyBytes)

/-- `_download_extension`: build the download url and fetch it to disk. -/
def _download_extension (net : Network)
    (extension_name publisher_name version : String)
    (save_path : List String) (fs : FS) : Except DlError FS :=
  download_url net (_build_extension_download_url extension_name publisher_name version)
    save_path fs

/-- `download_extension_by_id`: unpack `extension_id.split('.')` (ValueError,
modelled `unpackErr`, unless exactly two parts) and download. -/
def download_extension_by_id (net : Network) (extension_id version : String)
    (save_path : List String) (fs : FS) : Except DlError FS :=
  match splitStr '.' extension_id with
  | [publisher_name, extension_name] =>
      _download_extension net extension_name publisher_name version save_path fs
  | _ => Except.error DlError.unpackErr

/-- Pathlib suffix rule: a name's suffix starts at its last dot, provided that
dot is neither the first nor the last character of the name. -/
def nameWithSuffix (name sfx : String) : String :=
  let cs := name.toList
  match lastIdxOf '.' cs with
  | some i => if 0 < i ∧ i < cs.length - 1 then String.mk (cs.take i) ++ sfx else name ++ sfx
  | none => name ++ sfx

/-- `Path.with_suffix` on a path given as segments. -/
def pathWithSuffix (p : List String) (sfx : String) : List String :=
  match p with
  | [] => []
  | _ => p.dropLast ++ [nameWithSuffix ((p.getLast?).getD "") sfx]

/-- The final fan-out of `download_extensions_json`, in task order.  The
gathered tasks write to distinct computed paths; the model serializes them
(left to right), which fixes one of the unspecified completion orders. -/
def downloadAllExtensions (net : Network) (save_path : List String) :
    List ExtensionPath → FS → Except DlError FS
  | [], fs => Except.ok fs
  | p :: rest, fs => do
      let fs' ← download_extension_by_id net p.extension_id p.version
          (save_path ++ pathWithSuffix p.path ".vsix") fs
      downloadAllExtensions net save_path rest fs'

/-- `download_extensions_json`: parse (before the HTTP session is opened, so
a parse failure returns before any network activity), optionally patch real
names and versions, then fetch every target to
save_path / target path with suffix '.vsix'.  The Python None defaults of
real_name / versionize both mean `true`. -/
def download_extensions_json (net : Network) (json_data : SpecEntries)
    (save_path : List String) (real_name versionize : Bool) (fs : FS) :
    Except DlError FS :=
  match parse_extensions_json json_data with
  | Except.error e => Except.error (DlError.parse e)
  | Except.ok extension_paths => do
      let patched ←
        if real_name then patch_extension_paths net extension_paths versionize
        else Except.ok extension_paths
      downloadAllExtensions net save_path patched fs

/-- Mirrors the `VSCodeSpec` dataclass of vscode_downloader.py. -/
structure VSCodeSpec where
  platform : String
  build : String
  version : String
  deriving Repr, DecidableEq

/-- A raw element of the "vscode" JSON list: a flat object with the three
recognised keys, `none` meaning the key is absent. -/
structure VSCodeJsonEntry where
  platform : Option String
  build : Option String
  version : Option String
  deriving Repr, DecidableEq

/-- Raw "vscode" JSON data: either a list of flat objects or a single one. -/
inductive VSCodeJson where
  | list (entries : List VSCodeJsonEntry) : VSCodeJson
  | single (entry : VSCodeJsonEntry) : VSCodeJson

/-- LATEST_VERSION token. -/
def LATEST_VERSION : String := "latest"

/-- BUILDS.STABLE token. -/
def BUILDS_STABLE : String := "stable"

/-- `_parse_vscode_specification_dict`: one VSCodeSpec per element, in order;
`spec['platform']` raises KeyError when absent; 'build' and 'version' default
via dict.get to "stable" and "latest". -/
def _parse_vscode_specification_dict :
    List VSCodeJsonEntry → Except DlError (List VSCodeSpec)
  | [] => Except.ok []
  | spec :: rest =>
      match spec.platform with
      | none => Except.error DlError.keyError
      | some plat => do
          let tl ← _parse_vscode_specification_dict rest
          Except.ok (VSCodeSpec.mk plat (spec.build.getD BUILDS_STABLE)
            (spec.version.getD LATEST_VERSION) :: tl)

/-- `parse_vscode_json` on raw data: a non-list input is wrapped into a
one-element list first.  (The `Path` branch, loading the document from disk,
is file I/O outside the model.) -/
def parse_vscode_json : VSCodeJson → Except DlError (List VSCodeSpec)
  | VSCodeJson.list entries => _parse_vscode_specification_dict entries
  | VSCodeJson.single entry => _parse_vscode_specification_dict [entry]

/-- DOWNLOAD_CODE_LINK, formatted (`_build_vscode_download_url`). -/
def _build_vscode_download_url (platform build version : String) : String :=
  "https://update.code.visualstudio.com/" ++ version ++ "/" ++ platform ++ "/" ++ build

/-- `_build_vscode_download_url_from_spec`. -/
def _build_vscode_download_url_from_spec (spec : VSCodeSpec) : String :=
  _build_vscode_download_url spec.platform spec.build spec.version

/-- The final fan-out of `download_vscode_json`, in task order (writes go to
distinct computed paths; the model serializes them left to right). -/
def downloadAllVscode (net : Network) (save_path : List String) :
    List (VSCodeSpec × String) → FS → Except DlError FS
  | [], fs => Except.ok fs
  | (spec, filename) :: rest, fs => do
      let fs' ← download_url net (_build_vscode_download_url_from_spec spec)
          (save_path ++ [spec.platform, filename]) fs
      downloadAllVscode net save_path rest fs'

/-- `download_vscode_json`: parse, resolve every binary's original filename
(failures propagate), then fetch each binary to
save_path / platform / filename. -/
def download_vscode_json (net : Network) (json_data : VSCodeJson)
    (save_path : List String) (fs : FS) : Except DlError FS := do
  let vscode_specs ← parse_vscode_json json_data
  let vscode_filenames ← gatherExcept
      (vscode_specs.map
        (fun spec => get_original_filename net (_build_vscode_download_url_from_spec spec)))
  downloadAllVscode net save_path (vscode_specs.zip vscode_filenames) fs

/-- The claimed extensionId invariant: exactly one '.' separator with both
halves non-empty. -/
def extIdInvariant (extension_id : String) : Bool :=
  match splitStr '.' extension_id with
  | [a, b] => if a = "" then false else if b = "" then false else true
  | _ => false

/-- The spec example tree {"a": {"b": "pub.ext"}}. -/
def exampleTree : SpecEntries :=
  SpecEntries.cons "a"
    (SpecValue.dict (SpecEntries.cons "b" (SpecValue.str "pub.ext") SpecEntries.nil))
    SpecEntries.nil

/-- The end-to-end scenario's fixed vsix bytes. -/
def scenarioBytes : Bytes := [80, 75, 3, 4]

/-- The end-to-end scenario's specification {"extensions": {"tools": "ms-python.python"}}. -/
def scenarioSpec : SpecEntries :=
  SpecEntries.cons "tools" (SpecValue.str "ms-python.python") SpecEntries.nil

/-- The download url the scenario's target resolves to (version degrades to
the sentinel because the mocked transport only serves the vsix download). -/
def scenarioUrl : String := _build_extension_download_url "python" "ms-python" "latest"

/-- The mocked HTTP layer of the end-to-end scenario: the vsix download url
returns the fixed bytes with header Content-Disposition:
filename=python-2021.vsix; and every other request fails. -/
def scenarioNet : Network :=
  Network.mk (fun url =>
    if url = scenarioUrl then
      some (HttpResponse.mk (some "filename=python-2021.vsix;") url "" scenarioBytes)
    else none)

/-- A transport whose single response carries a Content-Disposition value
without a trailing semicolon, so the `filename=(.+);` pattern has no match. -/
def badCdNet : Network :=
  Network.mk (fun _ =>
    some (HttpResponse.mk (some "filename=python-2021.vsix") "https://h/a/b" "" []))

/-
Theorems.
-/

theorem gatherExcept_map_ok {ε α : Type} :
    ∀ (out : List α), gatherExcept (out.map (Except.ok : α → Except ε α)) = Except.ok out
  | [] => rfl
  | a :: rest => by
      show (gatherExcept (rest.map Except.ok)).map (fun l => a :: l) = _
      rw [gatherExcept_map_ok rest]
      rfl

theorem gatherExcept_ok_imp {ε α : Type} :
    ∀ (l : List (Except ε α)) (out : List α),
      gatherExcept l = Except.ok out → l = out.map Except.ok
  | [], out, h => by
      have h' : Except.ok ([] : List α) = Except.ok out := h
      injection h' with h''
      subst h''
      rfl
  | Except.error e :: rest, out, h => by
      exact Except.noConfusion h
  | Except.ok a :: rest, out, h => by
      have h' : (gatherExcept rest).map (fun l => a :: l) = Except.ok out := h
      cases hg : gatherExcept rest with
      | error e =>
          rw [hg] at h'
          exact Except.noConfusion h'
      | ok l' =>
          rw [hg] at h'
          have h2 : Except.ok (a :: l') = Except.ok out := h'
          injection h2 with h3
          subst h3
          have hrest := gatherExcept_ok_imp rest l' hg
          rw [hrest]
          rfl

theorem gatherExcept_eq_ok {ε α : Type} (l : List (Except ε α)) (out : List α) :
    gatherExcept l = Except.ok out ↔ l = out.map Except.ok :=
  ⟨gatherExcept_ok_imp l out, fun h => by rw [h]; exact gatherExcept_map_ok out⟩

theorem parse_wf_aux : ∀ (t : SpecEntries), wellFormedEntries t = true →
    _recursive_parse_to_dict t = Except.ok (targetsOf t)
  | SpecEntries.nil, _ => rfl
  | SpecEntries.cons key (SpecValue.str v) rest, h => by
      have h' : wellFormedValue (SpecValue.str v) = true ∧ wellFormedEntries rest = true := by
        simpa [wellFormedEntries, Bool.and_eq_true] using h
      have hv : ¬ v = "" := by
        intro hv; rw [hv] at h'; simp [wellFormedValue] at h'
      have hr := parse_wf_aux rest h'.2
      simp only [_recursive_parse_to_dict, if_neg hv]
      rw [hr]
      rfl
  | SpecEntries.cons key (SpecValue.dict d) rest, h => by
      have h' : wellFormedEntries d = true ∧ wellFormedEntries rest = true := by
        simpa [wellFormedEntries, wellFormedValue, Bool.and_eq_true] using h
      have hd := parse_wf_aux d h'.1
      have hr := parse_wf_aux rest h'.2
      simp only [_recursive_parse_to_dict]
      rw [hd, hr]
      show Except.ok
        ((targetsOf d).map
          (fun p => ExtensionPath.mk (key :: p.path) p.extension_id p.version)
          ++ targetsOf rest) = _
      simp only [targetsOf, stringLeaves, List.map_append, List.map_map]
      rfl
  | SpecEntries.cons key SpecValue.other rest, h => by
      simp [wellFormedEntries, wellFormedValue] at h

/-- C1: for every specification tree whose values are all non-empty strings or
nested mappings, parsing returns exactly one target per string leaf, in
depth-first insertion order, each with extension id the leaf value and path
the keys from the root to the leaf followed by the leaf value, with the
version defaulted to "latest". -/
theorem parse_one_target_per_leaf (t : SpecEntries) (h : wellFormedEntries t = true) :
    parse_extensions_json t = Except.ok
      ((stringLeaves t).map (fun x => ExtensionPath.mk (x.1 ++ [x.2]) x.2 "latest")) := by
  simpa [parse_extensions_json, targetsOf] using parse_wf_aux t h

/-- Witness for C1 at the spec example tree {"a": {"b": "pub.ext"}}. -/
theorem parse_one_target_per_leaf_witness :
    wellFormedEntries exampleTree = true ∧
    parse_extensions_json exampleTree =
      Except.ok [ExtensionPath.mk ["a", "b", "pub.ext"] "pub.ext" "latest"] :=
  ⟨rfl, by rw [parse_one_target_per_leaf exampleTree rfl]; rfl⟩

theorem parse_isOk_aux : ∀ (t : SpecEntries),
    exceptIsOk (_recursive_parse_to_dict t) = !entriesBad t
  | SpecEntries.nil => rfl
  | SpecEntries.cons key (SpecValue.str v) rest => by
      have ih := parse_isOk_aux rest
      by_cases hv : v = ""
      · subst hv
        simp only [_recursive_parse_to_dict, entriesBad, valueBad]
        rfl
      · simp only [_recursive_parse_to_dict, entriesBad, valueBad, if_neg hv]
        cases hr : _recursive_parse_to_dict rest with
        | error e => rw [hr] at ih; exact ih
        | ok l => rw [hr] at ih; exact ih
  | SpecEntries.cons key (SpecValue.dict d) rest => by
      have ihd := parse_isOk_aux d
      have ihr := parse_isOk_aux rest
      simp only [_recursive_parse_to_dict, entriesBad, valueBad]
      cases hd : _recursive_parse_to_dict d with
      | error e =>
          rw [hd] at ihd
          have hb : entriesBad d = true := by
            cases hb : entriesBad d
            · rw [hb] at ihd; exact absurd ihd (by simp [exceptIsOk])
            · rfl
          rw [hb]
          rfl
      | ok l =>
          rw [hd] at ihd
          have hb : entriesBad d = false := by
            cases hb : entriesBad d
            · rfl
            · rw [hb] at ihd; exact absurd ihd (by simp [exceptIsOk])
          rw [hb]
          cases hr : _recursive_parse_to_dict rest with
          | error e2 =>
              rw [hr] at ihr
              have hb2 : entriesBad rest = true := by
                cases hb2 : entriesBad rest
                · rw [hb2] at ihr; exact absurd ihr (by simp [exceptIsOk])
                · rfl
              rw [hb2]
              rfl
          | ok l2 =>
              rw [hr] at ihr
              have hb2 : entriesBad rest = false := by
                cases hb2 : entriesBad rest
                · rfl
                · rw [hb2] at ihr; exact absurd ihr (by simp [exceptIsOk])
              rw [hb2]
              rfl
  | SpecEntries.cons key SpecValue.other rest => rfl

/-- C2: parsing fails exactly when some value of the tree is neither a string
nor a mapping or some string leaf is empty; and in download_extensions_json
this is decided before any network activity: on a malformed tree the result
is the parse error, identical for every network oracle. -/
theorem parse_fails_iff_malformed :
    (∀ t : SpecEntries, exceptIsOk (parse_extensions_json t) = !entriesBad t)
  ∧ (∀ (t : SpecEntries) (net net' : Network) (sp : List String) (rn vz : Bool) (fs : FS),
      entriesBad t = true →
        (∃ e, download_extensions_json net t sp rn vz fs = Except.error (DlError.parse e))
        ∧ download_extensions_json net t sp rn vz fs
            = download_extensions_json net' t sp rn vz fs) := by
  constructor
  · intro t; exact parse_isOk_aux t
  · intro t net net' sp rn vz fs hbad
    have h := parse_isOk_aux t
    rw [hbad] at h
    cases hp : _recursive_parse_to_dict t with
    | error e =>
        constructor
        · exact ⟨e, by simp [download_extensions_json, parse_extensions_json, hp]⟩
        · simp [download_extensions_json, parse_extensions_json, hp]
    | ok l => rw [hp] at h; exact absurd h (by simp [exceptIsOk])

/-- C8: in download_url the full body is obtained before the save file is
opened, so a failed GET or body read produces the error with no write at all,
while only a fully successful fetch writes (the whole body, at the save
path). -/
theorem download_url_no_partial_write :
    (∀ (net : Network) (url : String) (sp : List String) (fs : FS),
        net.get url = none →
          download_url net url sp fs = Except.error (DlError.network url))
  ∧ (∀ (net : Network) (url : String) (sp : List String) (fs : FS) (resp : HttpResponse),
        net.get url = some resp →
          download_url net url sp fs = Except.ok (fsWrite fs sp resp.bodyBytes)) := by
  constructor
  · intro net url sp fs h
    simp [download_url, h]
  · intro net url sp fs resp h
    simp [download_url, h]

/-- C9: when a response carries a non-empty Content-Disposition header whose
value has no `filename=(.+);` match, get_original_filename raises IndexError
(indexing the empty findall list) instead of falling back to the response
url's final segment. -/
theorem content_disposition_no_match_raises (net : Network) (url : String)
    (resp : HttpResponse) (cd : String) (hresp : net.get url = some resp)
    (hcd : resp.contentDisposition = some cd) (hne : ¬ cd = "")
    (hmatch : findFilenameCapture cd = none) :
    get_original_filename net url = Except.error DlError.indexError := by
  simp [get_original_filename, hresp, hcd, if_neg hne, hmatch]

/-- Witness for C9: a header value missing the trailing semicolon. -/
theorem content_disposition_no_match_raises_witness :
    findFilenameCapture "filename=python-2021.vsix" = none ∧
    get_original_filename badCdNet "https://h/a/b" = Except.error DlError.indexError :=
  ⟨rfl, content_disposition_no_match_raises badCdNet "https://h/a/b"
    (HttpResponse.mk (some "filename=python-2021.vsix") "https://h/a/b" "" [])
    "filename=python-2021.vsix" rfl rfl (by decide) rfl⟩

theorem parsed_ids_nonempty_aux : ∀ (t : SpecEntries) (l : List ExtensionPath),
    _recursive_parse_to_dict t = Except.ok l →
    ∀ p ∈ l, ¬ p.extension_id = ""
  | SpecEntries.nil, l, h => by
      have h' : Except.ok ([] : List ExtensionPath) = Except.ok l := h
      injection h' with h''
      subst h''
      intro p hp
      exact absurd hp (List.not_mem_nil p)
  | SpecEntries.cons key (SpecValue.str v) rest, l, h => by
      by_cases hv : v = ""
      · rw [_recursive_parse_to_dict, if_pos hv] at h
        exact Except.noConfusion h
      · rw [_recursive_parse_to_dict, if_neg hv] at h
        cases hr : _recursive_parse_to_dict rest with
        | error e => rw [hr] at h; exact Except.noConfusion h
        | ok tail =>
            rw [hr] at h
            have h2 : Except.ok (ExtensionPath.mk [key, v] v "latest" :: tail) =
                Except.ok l := h
            injection h2 with h3
            subst h3
            intro p hp
            cases List.mem_cons.mp hp with
            | inl hph => rw [hph]; exact hv
            | inr hpt => exact parsed_ids_nonempty_aux rest tail hr p hpt
  | SpecEntries.cons key (SpecValue.dict d) rest, l, h => by
      rw [_recursive_parse_to_dict] at h
      cases hd : _recursive_parse_to_dict d with
      | error e => rw [hd] at h; exact Except.noConfusion h
      | ok sub =>
          rw [hd] at h
          cases hr : _recursive_parse_to_dict rest with
          | error e => rw [hr] at h; exact Except.noConfusion h
          | ok tail =>
              rw [hr] at h
              have h2 : Except.ok
                  (sub.map
                    (fun p => ExtensionPath.mk (key :: p.path) p.extension_id p.version)
                    ++ tail) = Except.ok l := h
              injection h2 with h3
              subst h3
              intro p hp
              cases List.mem_append.mp hp with
              | inl hps =>
                  obtain ⟨q, hq, hpq⟩ := List.mem_map.mp hps
                  rw [← hpq]
                  exact parsed_ids_nonempty_aux d sub hd q hq
              | inr hpt => exact parsed_ids_nonempty_aux rest tail hr p hpt
  | SpecEntries.cons key SpecValue.other rest, l, h => by
      exact Except.noConfusion h

/-- C5 as stated is false: the parser validates only that a leaf value is a
non-empty string, so the tree {"a": "noDot"} parses successfully into a
target whose extension id violates the claimed publisher.name invariant. -/
theorem parser_skips_extension_id_validation :
    parse_extensions_json (SpecEntries.cons "a" (SpecValue.str "noDot") SpecEntries.nil)
      = Except.ok [ExtensionPath.mk ["a", "noDot"] "noDot" "latest"]
    ∧ extIdInvariant "noDot" = false :=
  ⟨rfl, rfl⟩

/-- C5 amended: every target produced by the parser has a non-empty extension
id (nothing more is validated at parse time), and each later consumer that
splits the id on '.' — download-url construction, and download_extension_by_id
itself — succeeds exactly when the id splits into two parts: url construction
is ok iff the split has two parts, and download_extension_by_id returns the
tuple-unpack ValueError precisely when it does not (with two parts it
proceeds to the download, which can only fail with a network error). -/
theorem parsed_ids_nonempty_and_split (t : SpecEntries) (l : List ExtensionPath)
    (p : ExtensionPath) (hok : parse_extensions_json t = Except.ok l) (hp : p ∈ l) :
    ¬ p.extension_id = "" ∧
    (exceptIsOk (_build_extension_download_url_from_ext_path p) = true ↔
      (splitStr '.' p.extension_id).length = 2) ∧
    (∀ (net : Network) (version : String) (sp : List String) (fs : FS),
      download_extension_by_id net p.extension_id version sp fs
          = Except.error DlError.unpackErr ↔
        ¬ (splitStr '.' p.extension_id).length = 2) := by
  refine ⟨parsed_ids_nonempty_aux t l hok p hp, ?_, ?_⟩
  · unfold _build_extension_download_url_from_ext_path
    cases hs : splitStr '.' p.extension_id with
    | nil => simp [exceptIsOk]
    | cons a t1 =>
        cases t1 with
        | nil => simp [exceptIsOk]
        | cons b t2 =>
            cases t2 with
            | nil => simp [exceptIsOk]
            | cons c t3 => simp [exceptIsOk]
  · intro net version sp fs
    unfold download_extension_by_id
    cases hs : splitStr '.' p.extension_id with
    | nil => simp
    | cons a t1 =>
        cases t1 with
        | nil => simp
        | cons b t2 =>
            cases t2 with
            | nil =>
                simp only [List.length_cons, List.length_nil]
                constructor
                · intro hcontr
                  exfalso
                  unfold _download_extension download_url at hcontr
                  cases hg : net.get (_build_extension_download_url b a version) with
                  | none =>
                      rw [hg] at hcontr
                      injection hcontr with h2
                      exact DlError.noConfusion h2
                  | some resp =>
                      rw [hg] at hcontr
                      exact Except.noConfusion hcontr
                · intro hcontr
                  exact absurd trivial hcontr
            | cons c t3 =>
                constructor
                · intro _
                  simp
                · intro _
                  rfl

/-- Witness for the amended C5 at the parsed tree {"a": "pub.ext"}. -/
theorem parsed_ids_nonempty_and_split_witness :
    ¬ (ExtensionPath.mk ["a", "pub.ext"] "pub.ext" "latest").extension_id = "" ∧
    (exceptIsOk (_build_extension_download_url_from_ext_path
        (ExtensionPath.mk ["a", "pub.ext"] "pub.ext" "latest")) = true ↔
      (splitStr '.' "pub.ext").length = 2) ∧
    (∀ (net : Network) (version : String) (sp : List String) (fs : FS),
      download_extension_by_id net "pub.ext" version sp fs
          = Except.error DlError.unpackErr ↔
        ¬ (splitStr '.' "pub.ext").length = 2) :=
  parsed_ids_nonempty_and_split
    (SpecEntries.cons "a" (SpecValue.str "pub.ext") SpecEntries.nil)
    [ExtensionPath.mk ["a", "pub.ext"] "pub.ext" "latest"]
    (ExtensionPath.mk ["a", "pub.ext"] "pub.ext" "latest")
    rfl (List.mem_singleton.mpr rfl)

/-- C6: editor-binary spec parsing requires a platform field in every element
(failing with the missing-key error exactly when one is absent), defaults
build to "stable" and version to "latest", and accepts a single non-list
object by coercing it to a one-element list. -/
theorem parse_vscode_defaults :
    (∀ (l : List VSCodeJsonEntry),
        exceptIsOk (_parse_vscode_specification_dict l) = true ↔
          ∀ e ∈ l, ¬ e.platform = none)
  ∧ (∀ (l : List VSCodeJsonEntry),
        (∀ e ∈ l, ¬ e.platform = none) →
          _parse_vscode_specification_dict l = Except.ok
            (l.map (fun e => VSCodeSpec.mk (e.platform.getD "")
              (e.build.getD BUILDS_STABLE) (e.version.getD LATEST_VERSION))))
  ∧ (∀ (entry : VSCodeJsonEntry),
        parse_vscode_json (VSCodeJson.single entry)
          = parse_vscode_json (VSCodeJson.list [entry])) := by
  refine ⟨?_, ?_, ?_⟩
  · intro l
    induction l with
    | nil => simp [_parse_vscode_specification_dict, exceptIsOk]
    | cons e rest ih =>
        cases he : e.platform with
        | none =>
            simp only [_parse_vscode_specification_dict, he]
            constructor
            · intro hfalse
              have hf : (false : Bool) = true := hfalse
              exact absurd hf (by simp)
            · intro hall
              exact absurd he (hall e (List.mem_cons_self e rest))
        | some plat =>
            simp only [_parse_vscode_specification_dict, he]
            cases hr : _parse_vscode_specification_dict rest with
            | error err =>
                rw [hr] at ih
                constructor
                · intro hfalse
                  have hf : (false : Bool) = true := hfalse
                  exact absurd hf (by simp)
                · intro hall
                  have hok : (false : Bool) = true :=
                    ih.mpr (fun e2 he2 => hall e2 (List.mem_cons_of_mem e he2))
                  exact absurd hok (by simp)
            | ok specs =>
                rw [hr] at ih
                constructor
                · intro _ e2 he2
                  cases List.mem_cons.mp he2 with
                  | inl h1 => rw [h1, he]; exact fun hc => Option.noConfusion hc
                  | inr h2 => exact (ih.mp rfl) e2 h2
                · intro _
                  rfl
  · intro l
    induction l with
    | nil => intro _; rfl
    | cons e rest ih =>
        intro hall
        have he := hall e (List.mem_cons_self e rest)
        cases hp : e.platform with
        | none => exact absurd hp he
        | some plat =>
            have hrest := ih (fun e2 he2 => hall e2 (List.mem_cons_of_mem e he2))
            simp only [_parse_vscode_specification_dict, hp]
            rw [hrest]
            simp only [List.map_cons, hp, Option.getD_some]
            rfl
  · intro entry
    rfl

theorem exceptIsOk_iff {ε α : Type} (x : Except ε α) :
    exceptIsOk x = true ↔ ∃ a, x = Except.ok a := by
  cases x with
  | error e => simp [exceptIsOk]
  | ok a => simp [exceptIsOk]

theorem map_all_ok {ε α β : Type} (f : β → Except ε α) :
    ∀ (l : List β), (∀ b ∈ l, ∃ a, f b = Except.ok a) →
      ∃ out : List α, l.map f = out.map Except.ok
  | [], _ => ⟨[], rfl⟩
  | b :: rest, h => by
      obtain ⟨a, ha⟩ := h b (List.mem_cons_self b rest)
      obtain ⟨out, hout⟩ := map_all_ok f rest (fun x hx => h x (List.mem_cons_of_mem b hx))
      exact ⟨a :: out, by simp [ha, hout]⟩

theorem map_ok_elem {ε α β : Type} (f : β → Except ε α) :
    ∀ (l : List β) (out : List α), l.map f = out.map Except.ok →
      ∀ b ∈ l, ∃ a ∈ out, f b = Except.ok a
  | [], _, _, b, hb => absurd hb (List.not_mem_nil b)
  | x :: rest, out, h, b, hb => by
      cases out with
      | nil => simp at h
      | cons a os =>
          simp only [List.map_cons, List.cons.injEq] at h
          cases List.mem_cons.mp hb with
          | inl hbx => exact ⟨a, List.mem_cons_self a os, by rw [hbx, h.1]⟩
          | inr hbr =>
              obtain ⟨a2, ha2, hfa2⟩ := map_ok_elem f rest os h.2 b hbr
              exact ⟨a2, List.mem_cons_of_mem a ha2, hfa2⟩

theorem map_ok_elem2 {ε α β : Type} (f : β → Except ε α) :
    ∀ (l : List β) (out : List α), l.map f = out.map Except.ok →
      ∀ a ∈ out, ∃ b ∈ l, f b = Except.ok a
  | [], out, h, a, ha => by
      cases out with
      | nil => exact absurd ha (List.not_mem_nil a)
      | cons a0 os => simp at h
  | x :: rest, out, h, a, ha => by
      cases out with
      | nil => exact absurd ha (List.not_mem_nil a)
      | cons a0 os =>
          simp only [List.map_cons, List.cons.injEq] at h
          cases List.mem_cons.mp ha with
          | inl h1 => exact ⟨x, List.mem_cons_self x rest, by rw [h.1, h1]⟩
          | inr h2 =>
              obtain ⟨b, hb, hfb⟩ := map_ok_elem2 f rest os h.2 a h2
              exact ⟨b, List.mem_cons_of_mem x hb, hfb⟩

theorem patch_eq_ok (net : Network) (paths : List ExtensionPath) (vz : Bool)
    (p0 : List ExtensionPath) (us fns : List String)
    (hp0 : (if vz then versionize_extension_paths net paths else paths) = p0)
    (h1 : p0.map _build_extension_download_url_from_ext_path = us.map Except.ok)
    (h2 : us.map (get_original_filename net) = fns.map Except.ok) :
    patch_extension_paths net paths vz = Except.ok ((p0.zip fns).map setFilename) := by
  simp only [patch_extension_paths]
  rw [hp0, h1, gatherExcept_map_ok us]
  simp only [Bind.bind, Except.bind]
  rw [h2, gatherExcept_map_ok fns]

theorem patch_ok_elim (net : Network) (paths : List ExtensionPath) (vz : Bool)
    (out : List ExtensionPath)
    (h : patch_extension_paths net paths vz = Except.ok out) :
    ∃ us fns : List String,
      (if vz then versionize_extension_paths net paths else paths).map
          _build_extension_download_url_from_ext_path = us.map Except.ok ∧
      us.map (get_original_filename net) = fns.map Except.ok ∧
      out = ((if vz then versionize_extension_paths net paths else paths).zip fns).map
        setFilename := by
  simp only [patch_extension_paths] at h
  cases hg1 : gatherExcept ((if vz then versionize_extension_paths net paths
      else paths).map _build_extension_download_url_from_ext_path) with
  | error e =>
      rw [hg1] at h
      exact Except.noConfusion h
  | ok us =>
      rw [hg1] at h
      have h' : Except.bind (gatherExcept (us.map (get_original_filename net)))
          (fun fns => Except.ok
            (((if vz then versionize_extension_paths net paths else paths).zip fns).map
              setFilename)) = Except.ok out := h
      cases hg2 : gatherExcept (us.map (get_original_filename net)) with
      | error e => rw [hg2] at h'; exact Except.noConfusion h'
      | ok fns =>
          rw [hg2] at h'
          have h2 : Except.ok
              (((if vz then versionize_extension_paths net paths else paths).zip fns).map
                setFilename) = Except.ok out := h'
          injection h2 with h3
          exact ⟨us, fns, gatherExcept_ok_imp _ us hg1, gatherExcept_ok_imp _ fns hg2, h3.symm⟩

/-- C3: version resolution never raises — a failed page fetch or a missing
regex match degrades that target to the sentinel "latest" and the batch goes
on — while filename-resolution failures are not swallowed: the patch batch
succeeds exactly when every target's download url builds and its filename
lookup succeeds, and fails whenever one of them fails. -/
theorem version_resolution_never_fails :
    (∀ (net : Network) (extension_id : String),
        (net.get (MARKETPLACE_PAGE_LINK extension_id) = none ∨
          (∃ resp, net.get (MARKETPLACE_PAGE_LINK extension_id) = some resp ∧
            findVersionCapture resp.bodyText = none)) →
        get_extension_version net extension_id = "latest")
  ∧ (∀ (net : Network) (paths : List ExtensionPath) (vz : Bool),
      exceptIsOk (patch_extension_paths net paths vz) = true ↔
        ∀ p ∈ (if vz then versionize_extension_paths net paths else paths),
          ∃ url, _build_extension_download_url_from_ext_path p = Except.ok url ∧
            exceptIsOk (get_original_filename net url) = true) := by
  constructor
  · intro net extension_id h
    cases h with
    | inl hn => simp [get_extension_version, hn]
    | inr hs =>
        obtain ⟨resp, hresp, hv⟩ := hs
        simp [get_extension_version, hresp, hv]
  · intro net paths vz
    constructor
    · intro hok
      obtain ⟨out, hout⟩ := (exceptIsOk_iff _).mp hok
      obtain ⟨us, fns, h1, h2, _⟩ := patch_ok_elim net paths vz out hout
      intro p hp
      obtain ⟨u, hu, hbu⟩ := map_ok_elem _ _ us h1 p hp
      obtain ⟨fn, _, hfn⟩ := map_ok_elem _ us fns h2 u hu
      exact ⟨u, hbu, by rw [hfn]; rfl⟩
    · intro hall
      obtain ⟨us, hus⟩ := map_all_ok _ _
        (fun p hp => (hall p hp).elim (fun u hu => ⟨u, hu.1⟩))
      have hex2 : ∀ u ∈ us, ∃ fn, get_original_filename net u = Except.ok fn := by
        intro u hu
        obtain ⟨p, hp, hbp⟩ := map_ok_elem2 _ _ us hus u hu
        obtain ⟨url, hurl, hok2⟩ := hall p hp
        rw [hbp] at hurl
        injection hurl with h3
        rw [← h3] at hok2
        exact (exceptIsOk_iff _).mp hok2
      obtain ⟨fns, hfns⟩ := map_all_ok _ us hex2
      rw [patch_eq_ok net paths vz _ us fns rfl hus hfns]
      rfl

theorem map_fst_fun_zip {α β γ : Type} (g : α → γ) :
    ∀ (l : List α) (l2 : List β), l.length = l2.length →
      (l.zip l2).map (fun pf => g pf.1) = l.map g
  | [], [], _ => rfl
  | [], b :: bs, h => by simp at h
  | a :: as, [], h => by simp at h
  | a :: as, b :: bs, h => by
      simp only [List.zip_cons_cons, List.map_cons]
      rw [map_fst_fun_zip g as bs (by simpa using h)]

theorem setFilename_zip_idem : ∀ (l : List ExtensionPath) (fns : List String),
    (((l.zip fns).map setFilename).zip fns).map setFilename
      = (l.zip fns).map setFilename
  | [], _ => rfl
  | _ :: _, [] => rfl
  | p :: ps, f :: fs => by
      simp only [List.zip_cons_cons, List.map_cons]
      rw [setFilename_zip_idem ps fs]
      show setFilename (setFilename (p, f), f) :: _ = _
      rw [show setFilename (setFilename (p, f), f) = setFilename (p, f) from by
        simp [setFilename, withName, List.dropLast_concat]]

theorem versionize_setFilename_fix (net : Network) :
    ∀ (l : List ExtensionPath) (fns : List String),
      versionize_extension_paths net
          (((versionize_extension_paths net l).zip fns).map setFilename)
        = ((versionize_extension_paths net l).zip fns).map setFilename
  | [], _ => rfl
  | _ :: _, [] => rfl
  | p :: ps, f :: fs => by
      have ih := versionize_setFilename_fix net ps fs
      simp only [versionize_extension_paths, List.map_cons, List.zip_cons_cons] at ih ⊢
      rw [ih]
      rfl

/-- C7: filename resolution is idempotent: if patching a target list succeeds
(network responses held constant, since responses are a function of the url),
patching the patched list again succeeds and leaves every target unchanged. -/
theorem patch_extension_paths_idem (net : Network) (paths out : List ExtensionPath)
    (vz : Bool) (h : patch_extension_paths net paths vz = Except.ok out) :
    patch_extension_paths net out vz = Except.ok out := by
  obtain ⟨us, fns, h1, h2, hout⟩ := patch_ok_elim net paths vz out h
  cases vz with
  | false =>
      simp only [if_neg (Bool.false_ne_true)] at h1 hout
      have hlen : paths.length = fns.length := by
        have e1 := congrArg List.length h1
        have e2 := congrArg List.length h2
        simp only [List.length_map] at e1 e2
        rw [e1, e2]
      have hmb : out.map _build_extension_download_url_from_ext_path
          = paths.map _build_extension_download_url_from_ext_path := by
        rw [hout, List.map_map]
        exact map_fst_fun_zip _build_extension_download_url_from_ext_path paths fns hlen
      have hconc := patch_eq_ok net out false out us fns rfl (by rw [hmb]; exact h1) h2
      rw [hconc, hout, setFilename_zip_idem]
  | true =>
      simp only [eq_self_iff_true, if_true] at h1 hout
      have hlen : (versionize_extension_paths net paths).length = fns.length := by
        have e1 := congrArg List.length h1
        have e2 := congrArg List.length h2
        simp only [List.length_map] at e1 e2
        rw [e1, e2]
      have hfix : versionize_extension_paths net out = out := by
        rw [hout]
        exact versionize_setFilename_fix net paths fns
      have hmb : out.map _build_extension_download_url_from_ext_path
          = (versionize_extension_paths net paths).map
              _build_extension_download_url_from_ext_path := by
        rw [hout, List.map_map]
        exact map_fst_fun_zip _build_extension_download_url_from_ext_path
          (versionize_extension_paths net paths) fns hlen
      have hconc := patch_eq_ok net out true out us fns
        (by simp only [eq_self_iff_true, if_true]; exact hfix)
        (by rw [hmb]; exact h1) h2
      rw [hconc, hout, setFilename_zip_idem]

/-- Witness for C7: the scenario target list, patched once and then again. -/
theorem patch_extension_paths_idem_witness :
    patch_extension_paths scenarioNet
      [ExtensionPath.mk ["tools", "ms-python.python"] "ms-python.python" "latest"] true
      = Except.ok [ExtensionPath.mk ["tools", "python-2021.vsix"] "ms-python.python" "latest"]
    ∧ patch_extension_paths scenarioNet
      [ExtensionPath.mk ["tools", "python-2021.vsix"] "ms-python.python" "latest"] true
      = Except.ok [ExtensionPath.mk ["tools", "python-2021.vsix"] "ms-python.python" "latest"] :=
  ⟨rfl, patch_extension_paths_idem scenarioNet
    [ExtensionPath.mk ["tools", "ms-python.python"] "ms-python.python" "latest"]
    [ExtensionPath.mk ["tools", "python-2021.vsix"] "ms-python.python" "latest"] true rfl⟩

theorem download_extension_by_id_ok (net : Network) (extension_id version : String)
    (sp : List String) (fs fs2 : FS)
    (h : download_extension_by_id net extension_id version sp fs = Except.ok fs2) :
    ∃ data : Bytes, fs2 = fsWrite fs sp data := by
  unfold download_extension_by_id at h
  cases hs : splitStr '.' extension_id with
  | nil => rw [hs] at h; exact Except.noConfusion h
  | cons a t1 =>
      cases t1 with
      | nil => rw [hs] at h; exact Except.noConfusion h
      | cons b t2 =>
          cases t2 with
          | nil =>
              rw [hs] at h
              have h' : download_url net (_build_extension_download_url b a version) sp fs
                  = Except.ok fs2 := h
              unfold download_url at h'
              cases hg : net.get (_build_extension_download_url b a version) with
              | none => rw [hg] at h'; exact Except.noConfusion h'
              | some resp =>
                  rw [hg] at h'
                  have h2 : Except.ok (fsWrite fs sp resp.bodyBytes) = Except.ok fs2 := h'
                  injection h2 with h3
                  exact ⟨resp.bodyBytes, h3.symm⟩
          | cons c t3 => rw [hs] at h; exact Except.noConfusion h

theorem downloadAllExtensions_layout (net : Network) (sp : List String) :
    ∀ (targets : List ExtensionPath) (fs fs2 : FS),
      downloadAllExtensions net sp targets fs = Except.ok fs2 →
      ∀ q ∈ fs2, q ∈ fs ∨ ∃ p, p ∈ targets ∧ q.1 = sp ++ pathWithSuffix p.path ".vsix"
  | [], fs, fs2, h, q, hq => by
      have h' : Except.ok fs = Except.ok fs2 := h
      injection h' with h''
      subst h''
      exact Or.inl hq
  | p :: rest, fs, fs2, h, q, hq => by
      cases hd : download_extension_by_id net p.extension_id p.version
          (sp ++ pathWithSuffix p.path ".vsix") fs with
      | error e =>
          simp only [downloadAllExtensions] at h
          rw [hd] at h
          exact Except.noConfusion h
      | ok fs3 =>
          simp only [downloadAllExtensions] at h
          rw [hd] at h
          have h' : downloadAllExtensions net sp rest fs3 = Except.ok fs2 := h
          have hrec := downloadAllExtensions_layout net sp rest fs3 fs2 h' q hq
          cases hrec with
          | inr hex =>
              obtain ⟨p2, hp2, hq2⟩ := hex
              exact Or.inr ⟨p2, List.mem_cons_of_mem p hp2, hq2⟩
          | inl hin =>
              obtain ⟨data, hdata⟩ := download_extension_by_id_ok net p.extension_id
                p.version (sp ++ pathWithSuffix p.path ".vsix") fs fs3 hd
              rw [hdata] at hin
              cases List.mem_append.mp hin with
              | inl hl => exact Or.inl (List.mem_of_mem_filter hl)
              | inr hr =>
                  have hq1 : q = (sp ++ pathWithSuffix p.path ".vsix", data) := by
                    simpa using hr
                  exact Or.inr ⟨p, List.mem_cons_self p rest, by rw [hq1]⟩

theorem downloadAllVscode_layout (net : Network) (sp : List String) :
    ∀ (targets : List (VSCodeSpec × String)) (fs fs2 : FS),
      downloadAllVscode net sp targets fs = Except.ok fs2 →
      ∀ q ∈ fs2, q ∈ fs ∨ ∃ s, s ∈ targets ∧ q.1 = sp ++ [s.1.platform, s.2]
  | [], fs, fs2, h, q, hq => by
      have h' : Except.ok fs = Except.ok fs2 := h
      injection h' with h''
      subst h''
      exact Or.inl hq
  | (spec, filename) :: rest, fs, fs2, h, q, hq => by
      cases hd : download_url net (_build_vscode_download_url_from_spec spec)
          (sp ++ [spec.platform, filename]) fs with
      | error e =>
          simp only [downloadAllVscode] at h
          rw [hd] at h
          exact Except.noConfusion h
      | ok fs3 =>
          simp only [downloadAllVscode] at h
          rw [hd] at h
          have h' : downloadAllVscode net sp rest fs3 = Except.ok fs2 := h
          have hrec := downloadAllVscode_layout net sp rest fs3 fs2 h' q hq
          cases hrec with
          | inr hex =>
              obtain ⟨s2, hs2, hq2⟩ := hex
              exact Or.inr ⟨s2, List.mem_cons_of_mem (spec, filename) hs2, hq2⟩
          | inl hin =>
              have hw : ∃ data : Bytes, fs3 = fsWrite fs (sp ++ [spec.platform, filename]) data := by
                unfold download_url at hd
                cases hg : net.get (_build_vscode_download_url_from_spec spec) with
                | none => rw [hg] at hd; exact Except.noConfusion hd
                | some resp =>
                    rw [hg] at hd
                    have h2 : Except.ok (fsWrite fs (sp ++ [spec.platform, filename])
                        resp.bodyBytes) = Except.ok fs3 := hd
                    injection h2 with h3
                    exact ⟨resp.bodyBytes, h3.symm⟩
              obtain ⟨data, hdata⟩ := hw
              rw [hdata] at hin
              cases List.mem_append.mp hin with
              | inl hl => exact Or.inl (List.mem_of_mem_filter hl)
              | inr hr =>
                  have hq1 : q = (sp ++ [spec.platform, filename], data) := by
                    simpa using hr
                  exact Or.inr ⟨(spec, filename), List.mem_cons_self (spec, filename) rest,
                    by rw [hq1]⟩

/-- C4: on-disk layout.  Every file an extension batch writes sits at
root / (target path, with the '.vsix' suffix); every file an editor-binary
batch writes sits at root / platform / resolved filename; and in the
end-to-end scenario — spec {"extensions": {"tools": "ms-python.python"}},
fixed bytes, header Content-Disposition: filename=python-2021.vsix; —
exactly one file is written, at root/tools/python-2021.vsix, holding those
bytes. -/
theorem on_disk_layout :
    (∀ (net : Network) (sp : List String) (targets : List ExtensionPath) (fs fs2 : FS),
        downloadAllExtensions net sp targets fs = Except.ok fs2 →
        ∀ q ∈ fs2, q ∈ fs ∨ ∃ p, p ∈ targets ∧ q.1 = sp ++ pathWithSuffix p.path ".vsix")
  ∧ (∀ (net : Network) (sp : List String) (targets : List (VSCodeSpec × String)) (fs fs2 : FS),
        downloadAllVscode net sp targets fs = Except.ok fs2 →
        ∀ q ∈ fs2, q ∈ fs ∨ ∃ s, s ∈ targets ∧ q.1 = sp ++ [s.1.platform, s.2])
  ∧ download_extensions_json scenarioNet scenarioSpec ["root"] true true [] =
      Except.ok [(["root", "tools", "python-2021.vsix"], scenarioBytes)] := by
  refine ⟨?_, ?_, ?_⟩
  · intro net sp targets fs fs2 h q hq
    exact downloadAllExtensions_layout net sp targets fs fs2 h q hq
  · intro net sp targets fs fs2 h q hq
    exact downloadAllVscode_layout net sp targets fs fs2 h q hq
  · rfl

/-- Witness for C2 at the malformed tree {"a": ""}. -/
theorem parse_fails_iff_malformed_witness :
    entriesBad (SpecEntries.cons "a" (SpecValue.str "") SpecEntries.nil) = true ∧
    (∃ e, download_extensions_json badCdNet
        (SpecEntries.cons "a" (SpecValue.str "") SpecEntries.nil) ["root"] true true []
        = Except.error (DlError.parse e)) :=
  ⟨rfl, (parse_fails_iff_malformed.2
      (SpecEntries.cons "a" (SpecValue.str "") SpecEntries.nil)
      badCdNet scenarioNet ["root"] true true [] rfl).1⟩

/-- Witness for C3: the scenario transport serves no marketplace page, so the
version degrades to the sentinel. -/
theorem version_resolution_never_fails_witness :
    get_extension_version scenarioNet "ms-python.python" = "latest" :=
  version_resolution_never_fails.1 scenarioNet "ms-python.python" (Or.inl rfl)

/-- Witness for C4 at the scenario's resolved single-target batch. -/
theorem on_disk_layout_witness :
    downloadAllExtensions scenarioNet ["root"]
      [ExtensionPath.mk ["tools", "python-2021.vsix"] "ms-python.python" "latest"] []
      = Except.ok [(["root", "tools", "python-2021.vsix"], scenarioBytes)] ∧
    ∀ q ∈ [((["root", "tools", "python-2021.vsix"], scenarioBytes) : List String × Bytes)],
      q ∈ ([] : FS) ∨ ∃ p,
        p ∈ [ExtensionPath.mk ["tools", "python-2021.vsix"] "ms-python.python" "latest"]
        ∧ q.1 = ["root"] ++ pathWithSuffix p.path ".vsix" :=
  ⟨rfl, on_disk_layout.1 scenarioNet ["root"]
    [ExtensionPath.mk ["tools", "python-2021.vsix"] "ms-python.python" "latest"] []
    [(["root", "tools", "python-2021.vsix"], scenarioBytes)] rfl⟩

/-- Witness for C6: a single element with only the platform field present. -/
theorem parse_vscode_defaults_witness :
    _parse_vscode_specification_dict [VSCodeJsonEntry.mk (some "win32-x64") none none]
      = Except.ok [VSCodeSpec.mk "win32-x64" "stable" "latest"] := by
  rw [parse_vscode_defaults.2.1 [VSCodeJsonEntry.mk (some "win32-x64") none none]
    (by intro e he; rw [List.mem_singleton] at he; subst he; simp)]
  rfl

/-- Witness for C8: a url the scenario transport fails on. -/
theorem download_url_no_partial_write_witness :
    scenarioNet.get "https://nope" = none ∧
    download_url scenarioNet "https://nope" ["root", "f"] []
      = Except.error (DlError.network "https://nope") :=
  ⟨rfl, download_url_no_partial_write.1 scenarioNet "https://nope" ["root", "f"] [] rfl⟩
